import Mathlib

/-!
Verification of the Audio Analysis & Timeline Synchronization Engine of the
LipsyncBeta repository, as a shallow embedding in Lean 4.

Audio samples and timeline times are embedded as exact rationals (`ℚ`).  The
one numeric kernel present in the repository, `calculate_rms_fast` in
`src/main/optimizations/rms_fast.pyx`, accumulates a sum of squares in double
precision over an OpenMP `prange` loop with a static schedule and returns
`sqrt(sum_sq / n)`; the parallel schedule is made explicit here as a chunking
of the buffer into contiguous chunks, and the final square root — which leaves
`ℚ` — is applied as `Real.sqrt` in the statements of the theorems.

The phoneme segmenter, the timeline model with its undo/redo command history,
and the JSON export/import encoders are not present under `src/` (the
repository ships only the kernel, build scripts and documentation), so they
are modelled from the specification; each such definition is marked
`Modelled from the spec:` in its doc comment.
-/

deriving instance DecidableEq for Except

namespace Lipsync

/-- Error raised by the RMS kernel: the source raises
`ValueError("音声データが空です。")` on an empty buffer. -/
inductive RmsError
  | emptyInput
deriving DecidableEq, Repr

/-- Sequential sum of squares: embeds the accumulation
`sum_sq += audio_data[i] * audio_data[i]` of `calculate_rms_fast`
(`rms_fast.pyx` lines 37-40) run in source order with exact arithmetic. -/
def sumSq (xs : List ℚ) : ℚ := xs.foldl (fun a x => a + x * x) 0

/-- Per-chunk partial sums combined at the end: the shape of the OpenMP
reduction produced by `prange(n, nogil=True, schedule='static')`, where each
thread accumulates a private partial sum over its contiguous chunk and the
partials are then added. -/
def parSumSq (chunks : List (List ℚ)) : ℚ := (chunks.map sumSq).sum

/-- Embedding of `calculate_rms_fast` (`rms_fast.pyx` lines 21-42).  The
parallel schedule is explicit: `chunks` is the partition of the buffer into
the contiguous per-thread chunks, so the buffer itself is `chunks.flatten`.
Guards `if n == 0: raise ValueError(...)`, then returns the radicand
`sum_sq / n`; the source's final `math.sqrt` is applied by the caller as
`Real.sqrt` in the theorems below. -/
def calculate_rms_fast (chunks : List (List ℚ)) : Except RmsError ℚ :=
  let n := chunks.flatten.length
  if n = 0 then .error .emptyInput
  else .ok (parSumSq chunks / (n : ℚ))

/-- Radicand of the naive sequential double-precision reference
`sqrt((sum of x_i^2)/n)` the spec validates against. -/
def naive_rms_sq (xs : List ℚ) : ℚ := sumSq xs / (xs.length : ℚ)

theorem sumSq_foldl_init (xs : List ℚ) (a : ℚ) :
    xs.foldl (fun a x => a + x * x) a = a + sumSq xs := by
  induction xs generalizing a with
  | nil => simp [sumSq]
  | cons x xs ih =>
      rw [sumSq, List.foldl_cons, List.foldl_cons, ih, ih (0 + x * x)]
      ring

theorem sumSq_cons (x : ℚ) (xs : List ℚ) : sumSq (x :: xs) = x * x + sumSq xs := by
  rw [sumSq, List.foldl_cons, sumSq_foldl_init]; ring

theorem sumSq_append (xs ys : List ℚ) : sumSq (xs ++ ys) = sumSq xs + sumSq ys := by
  induction xs with
  | nil => simp [sumSq]
  | cons x xs ih => rw [List.cons_append, sumSq_cons, sumSq_cons, ih]; ring

/-- The chunked parallel reduction computes exactly the sequential sum of
squares of the flattened buffer. -/
theorem parSumSq_eq_sumSq_flatten (chunks : List (List ℚ)) :
    parSumSq chunks = sumSq chunks.flatten := by
  induction chunks with
  | nil => simp [parSumSq, sumSq]
  | cons c cs ih =>
      rw [parSumSq, List.map_cons, List.sum_cons, List.flatten_cons, sumSq_append, ← ih]
      rfl

theorem sumSq_nonneg (xs : List ℚ) : 0 ≤ sumSq xs := by
  induction xs with
  | nil => simp [sumSq]
  | cons x xs ih => rw [sumSq_cons]; nlinarith [mul_self_nonneg x]

theorem sumSq_eq_zero_of_all_zero (xs : List ℚ) (h : ∀ x ∈ xs, x = 0) :
    sumSq xs = 0 := by
  induction xs with
  | nil => simp [sumSq]
  | cons x xs ih =>
      rw [sumSq_cons, ih (fun y hy => h y (List.mem_cons_of_mem x hy)),
        h x (List.mem_cons_self x xs)]
      ring

/-- C1: for every non-empty float32 sample buffer, the optimized RMS
computation `calculate_rms_fast` (sum of squares accumulated in double
precision over a parallel loop, embedded here as an arbitrary contiguous
chunking of the buffer) agrees with the naive sequential double-precision
reference `sqrt((sum of x_i^2)/n)`: in the exact-arithmetic embedding the two
root-mean-square values are equal, so in particular the absolute difference is
within `1e-6` times the reference value. -/
theorem calculate_rms_fast_matches_naive_reference
    (chunks : List (List ℚ)) (xs : List ℚ)
    (hflat : chunks.flatten = xs) (hne : xs ≠ []) :
    ∃ msq : ℚ, calculate_rms_fast chunks = .ok msq ∧
      Real.sqrt msq = Real.sqrt (naive_rms_sq xs) ∧
      |Real.sqrt msq - Real.sqrt (naive_rms_sq xs)|
        ≤ (1 / 1000000 : ℝ) * Real.sqrt (naive_rms_sq xs) := by
  have hlen : chunks.flatten.length ≠ 0 := by
    rw [hflat]; exact fun h => hne (List.eq_nil_of_length_eq_zero h)
  refine ⟨naive_rms_sq xs, ?_, rfl, ?_⟩
  · rw [calculate_rms_fast]
    simp only [hlen, if_false]
    rw [parSumSq_eq_sumSq_flatten, hflat, naive_rms_sq]
  · rw [sub_self, abs_zero]
    have h1 : (0 : ℝ) ≤ Real.sqrt (naive_rms_sq xs) := Real.sqrt_nonneg _
    nlinarith

/-- Witness for C1 at the concrete buffer `[3, 4]` split into two chunks. -/
theorem calculate_rms_fast_matches_naive_reference_witness :
    ([[3], [4]] : List (List ℚ)).flatten = [3, 4] ∧ ([3, 4] : List ℚ) ≠ [] ∧
    ∃ msq : ℚ, calculate_rms_fast [[3], [4]] = .ok msq ∧
      Real.sqrt msq = Real.sqrt (naive_rms_sq [3, 4]) ∧
      |Real.sqrt msq - Real.sqrt (naive_rms_sq [3, 4])|
        ≤ (1 / 1000000 : ℝ) * Real.sqrt (naive_rms_sq [3, 4]) :=
  ⟨rfl, by decide,
    calculate_rms_fast_matches_naive_reference [[3], [4]] [3, 4] rfl (by decide)⟩

/-- C8: the result of `calculate_rms_fast` depends only on the buffer, not on
how the parallel loop chunks it: any two chunkings of the same input produce
identical output (the Except value itself), so two runs on identical input are
deterministic and reproducible. -/
theorem calculate_rms_fast_deterministic (c1 c2 : List (List ℚ))
    (h : c1.flatten = c2.flatten) :
    calculate_rms_fast c1 = calculate_rms_fast c2 := by
  rw [calculate_rms_fast, calculate_rms_fast]
  simp only [parSumSq_eq_sumSq_flatten, h]

/-- Witness for C8: splitting `[1, 2, 3]` as `[[1], [2, 3]]` or `[[1, 2], [3]]`
gives the same RMS result. -/
theorem calculate_rms_fast_deterministic_witness :
    ([[1], [2, 3]] : List (List ℚ)).flatten = ([[1, 2], [3]] : List (List ℚ)).flatten ∧
    calculate_rms_fast [[1], [2, 3]] = calculate_rms_fast [[1, 2], [3]] :=
  ⟨rfl, calculate_rms_fast_deterministic [[1], [2, 3]] [[1, 2], [3]] rfl⟩

/-- C10: `calculate_rms_fast` is total on every non-empty input: the divisor
`n` of the unchecked division `sum_sq / n` (compiled with `cdivision=True`) is
non-zero because of the preceding `n == 0` guard, the function returns `.ok`,
and the returned radicand — hence also the final square root — is
non-negative. -/
theorem calculate_rms_fast_total_nonneg (chunks : List (List ℚ))
    (hne : chunks.flatten ≠ []) :
    chunks.flatten.length ≠ 0 ∧
    ∃ msq : ℚ, calculate_rms_fast chunks = .ok msq ∧ 0 ≤ msq ∧
      0 ≤ Real.sqrt msq := by
  have hlen : chunks.flatten.length ≠ 0 :=
    fun h => hne (List.eq_nil_of_length_eq_zero h)
  refine ⟨hlen, parSumSq chunks / (chunks.flatten.length : ℚ), ?_, ?_, Real.sqrt_nonneg _⟩
  · rw [calculate_rms_fast]; simp only [hlen, if_false]
  · apply div_nonneg
    · rw [parSumSq_eq_sumSq_flatten]; exact sumSq_nonneg _
    · exact_mod_cast Nat.zero_le _

/-- Witness for C10 at the concrete chunking `[[1, 2]]`. -/
theorem calculate_rms_fast_total_nonneg_witness :
    ([[1, 2]] : List (List ℚ)).flatten ≠ [] ∧
    (([[1, 2]] : List (List ℚ)).flatten.length ≠ 0 ∧
      ∃ msq : ℚ, calculate_rms_fast [[1, 2]] = .ok msq ∧ 0 ≤ msq ∧
        0 ≤ Real.sqrt msq) :=
  ⟨by decide, calculate_rms_fast_total_nonneg [[1, 2]] (by decide)⟩

/-- Error raised by the envelope extractor on malformed parameters. -/
inductive EnvError
  | invalidInput
deriving DecidableEq, Repr

/-- One triple of an Envelope Curve: window start time, window end time (in
samples) and the amplitude of the window. -/
structure EnvPoint where
  wStart : ℚ
  wEnd : ℚ
  amplitude : ℚ
deriving DecidableEq, Repr

/-- Mean square of a window: the kernel's `sum_sq / n` restricted to the
window's samples (`0` on an empty window, matching `0 / 0 = 0` in `ℚ`). -/
def meanSq (xs : List ℚ) : ℚ := sumSq xs / (xs.length : ℚ)

/-- Number of hop positions: `ceil((len(buffer) - W)/H) + 1`, boundary-clipped
to one window when the buffer is no longer than `W`. -/
def numWindows (n W H : Nat) : Nat :=
  if n ≤ W then 1 else ((n - W) + H - 1) / H + 1

/-- Modelled from the spec: the Envelope Extractor (not present under `src/`;
only the aggregate RMS kernel is).  Given a Sample Buffer, a window size `W`
and a hop size `H` (samples), produces one triple per hop position whose
amplitude is the mean square of the samples in `[i*H, i*H + W)`, clipped at
the buffer boundary, computed with the kernel's sequential sum-of-squares
accumulation; the square root is applied by the caller as `Real.sqrt`.  Fails
with `InvalidInput` when the buffer is empty or `W ≤ 0`. -/
def extract_envelope (xs : List ℚ) (W H : Nat) : Except EnvError (List EnvPoint) :=
  if xs.length = 0 ∨ W = 0 then .error .invalidInput
  else .ok ((List.range (numWindows xs.length W H)).map (fun i =>
    { wStart := (i * H : Nat)
      wEnd := (min (i * H + W) xs.length : Nat)
      amplitude := meanSq ((xs.drop (i * H)).take W) }))

/-- C2: the envelope extraction fails with `InvalidInput` exactly when the
sample buffer is empty or the window size is not positive; on every non-empty
buffer with a positive window size it returns a result rather than an
error. -/
theorem extract_envelope_invalid_iff (xs : List ℚ) (W H : Nat) :
    (extract_envelope xs W H = .error .invalidInput ↔ (xs = [] ∨ ¬ 0 < W)) ∧
    (xs ≠ [] → 0 < W → ∃ pts, extract_envelope xs W H = .ok pts) := by
  constructor
  · constructor
    · intro h
      by_contra hc
      push_neg at hc
      have h1 : ¬ (xs.length = 0 ∨ W = 0) := by
        push_neg
        exact ⟨fun hl => hc.1 (List.eq_nil_of_length_eq_zero hl), by omega⟩
      rw [extract_envelope, if_neg h1] at h
      exact Except.noConfusion h
    · intro h
      have h1 : xs.length = 0 ∨ W = 0 := by
        rcases h with h | h
        · exact Or.inl (by rw [h]; rfl)
        · exact Or.inr (by omega)
      rw [extract_envelope, if_pos h1]
  · intro hne hW
    have h1 : ¬ (xs.length = 0 ∨ W = 0) := by
      push_neg
      exact ⟨fun hl => hne (List.eq_nil_of_length_eq_zero hl), by omega⟩
    exact ⟨_, by rw [extract_envelope, if_neg h1]⟩

/-- C9: on a non-empty buffer consisting entirely of zeros, every amplitude
produced by the envelope extraction is exactly `0` — both the stored mean
square and its square root. -/
theorem extract_envelope_silent_zero (xs : List ℚ) (W H : Nat)
    (pts : List EnvPoint) (hz : ∀ x ∈ xs, x = 0)
    (hok : extract_envelope xs W H = .ok pts) :
    ∀ p ∈ pts, p.amplitude = 0 ∧ Real.sqrt p.amplitude = 0 := by
  intro p hp
  have hamp : p.amplitude = 0 := by
    rcases em (xs.length = 0 ∨ W = 0) with h | h
    · rw [extract_envelope, if_pos h] at hok
      exact Except.noConfusion hok
    · rw [extract_envelope, if_neg h] at hok
      have hpts : pts = (List.range (numWindows xs.length W H)).map _ :=
        (Except.ok.injEq _ _).mp hok.symm
      rw [hpts] at hp
      rcases List.mem_map.mp hp with ⟨i, _, hi⟩
      rw [← hi]
      have hwz : sumSq ((xs.drop (i * H)).take W) = 0 := by
        apply sumSq_eq_zero_of_all_zero
        intro x hx
        exact hz x (List.mem_of_mem_drop (List.mem_of_mem_take hx))
      simp only [meanSq, hwz, zero_div]
  exact ⟨hamp, by rw [hamp]; exact_mod_cast Real.sqrt_zero⟩

/-- Witness for C9 at the silent buffer `[0, 0, 0]` with `W = 2`, `H = 1`. -/
theorem extract_envelope_silent_zero_witness :
    (∀ x ∈ ([0, 0, 0] : List ℚ), x = 0) ∧
    extract_envelope [0, 0, 0] 2 1 = .ok [⟨0, 2, 0⟩, ⟨1, 3, 0⟩] ∧
    ∀ p ∈ ([⟨0, 2, 0⟩, ⟨1, 3, 0⟩] : List EnvPoint),
      p.amplitude = 0 ∧ Real.sqrt p.amplitude = 0 :=
  ⟨by decide,
    by norm_num [extract_envelope, numWindows, meanSq, sumSq, List.range_succ],
    extract_envelope_silent_zero [0, 0, 0] 2 1 _ (by decide)
      (by norm_num [extract_envelope, numWindows, meanSq, sumSq, List.range_succ])⟩

/-- Mouth-shape categories: one per Japanese vowel sound plus a
closed-mouth/silence category. -/
inductive MouthShape
  | a | i | u | e | o | closed
deriving DecidableEq, Repr

/-- Phoneme Unit: a lexical unit paired with its canonical phonetic symbol
(the `surface`/`phoneme` pair of the `Phoneme` message in the analysis
protobuf). -/
structure PhonemeUnit where
  surface : String
  phoneme : String
deriving DecidableEq, Repr

/-- Phoneme Block: a timed interval labeled with a phonetic unit, a
mouth-shape category and an amplitude hint.  `stop` is the spec's
`end_time`. -/
structure Block where
  surface : String
  label : String
  start : ℚ
  stop : ℚ
  shape : MouthShape
  amp : ℚ
deriving DecidableEq, Repr

/-- Modelled from the spec: deterministic lookup from phoneme label to
mouth-shape category; unmapped labels fall back to the neutral/closed
category rather than failing. -/
def phonemeToShape (p : String) : MouthShape :=
  if p = "a" then .a
  else if p = "i" then .i
  else if p = "u" then .u
  else if p = "e" then .e
  else if p = "o" then .o
  else .closed

/-- Modelled from the spec: per-label default phonetic duration weight —
vowels longer than most consonants, silence/pause labels a fixed minimum
floor.  Every weight is positive. -/
def defaultWeight (p : String) : ℚ :=
  if p = "a" ∨ p = "i" ∨ p = "u" ∨ p = "e" ∨ p = "o" then 2
  else if p = "sil" ∨ p = "pau" then 1 / 2
  else 1

/-- Sum of the default weights of a transcript. -/
def totalWeight (units : List PhonemeUnit) : ℚ :=
  (units.map (fun u => defaultWeight u.phoneme)).sum

/-- Single silence block spanning the whole duration. -/
def silenceBlock (D : ℚ) : Block :=
  { surface := "", label := "sil", start := 0, stop := D, shape := .closed, amp := 0 }

/-- Proportional allocation: each unit's block spans the sub-interval of
`[0, D)` between the accumulated weight fraction `acc / T` and
`(acc + w) / T`. -/
def segAux (D T : ℚ) (acc : ℚ) : List PhonemeUnit → List Block
  | [] => []
  | u :: rest =>
      { surface := u.surface, label := u.phoneme,
        start := D * acc / T, stop := D * (acc + defaultWeight u.phoneme) / T,
        shape := phonemeToShape u.phoneme, amp := 0 } ::
      segAux D T (acc + defaultWeight u.phoneme) rest

/-- Modelled from the spec: the Phoneme Segmenter's proportional-allocation
path (no timing hints), not present under `src/`.  Each unit receives a
duration proportional to its per-label default weight, normalized so the
blocks cover `[0, D)` exactly; an empty transcript yields a single silence
block instead of an error. -/
def segment_transcript (units : List PhonemeUnit) (D : ℚ) : List Block :=
  match units with
  | [] => [silenceBlock D]
  | u :: rest => segAux D (totalWeight (u :: rest)) 0 (u :: rest)

/-- Contiguity: each block ends exactly where the next one starts. -/
def blocksContig (bs : List Block) : Prop :=
  List.Chain' (fun a b => a.stop = b.start) bs

/-- Total duration of a block list. -/
def sumDur (bs : List Block) : ℚ := (bs.map (fun b => b.stop - b.start)).sum

theorem defaultWeight_pos (p : String) : 0 < defaultWeight p := by
  rw [defaultWeight]
  split
  · norm_num
  · split <;> norm_num

theorem totalWeight_pos (u : PhonemeUnit) (rest : List PhonemeUnit) :
    0 < totalWeight (u :: rest) := by
  induction rest generalizing u with
  | nil => simpa [totalWeight] using defaultWeight_pos u.phoneme
  | cons v vs ih =>
      have h1 := defaultWeight_pos u.phoneme
      have h2 := ih v
      rw [totalWeight] at h2 ⊢
      simp only [List.map_cons, List.sum_cons] at h2 ⊢
      linarith

theorem segAux_sumDur (D T : ℚ) (units : List PhonemeUnit) (acc : ℚ) :
    sumDur (segAux D T acc units) =
      D * (acc + totalWeight units) / T - D * acc / T := by
  induction units generalizing acc with
  | nil => simp [segAux, sumDur, totalWeight]
  | cons u rest ih =>
      rw [segAux, sumDur, List.map_cons, List.sum_cons]
      have h := ih (acc + defaultWeight u.phoneme)
      rw [sumDur] at h
      rw [h]
      simp only [totalWeight, List.map_cons, List.sum_cons]
      ring

theorem segAux_contig (D T : ℚ) (units : List PhonemeUnit) (acc : ℚ) :
    blocksContig (segAux D T acc units) := by
  induction units generalizing acc with
  | nil => exact List.chain'_nil
  | cons u rest ih =>
      rw [segAux, blocksContig]
      apply List.chain'_cons'.mpr
      refine ⟨?_, ih _⟩
      intro y hy
      cases rest with
      | nil => simp [segAux] at hy
      | cons v vs =>
          rw [segAux, List.head?_cons, Option.mem_def, Option.some.injEq] at hy
          rw [← hy]

theorem segAux_pos_dur (D T : ℚ) (hD : 0 < D) (hT : 0 < T)
    (units : List PhonemeUnit) (acc : ℚ) :
    ∀ b ∈ segAux D T acc units, 0 < b.stop - b.start := by
  induction units generalizing acc with
  | nil => intro b hb; simp [segAux] at hb
  | cons u rest ih =>
      intro b hb
      rw [segAux, List.mem_cons] at hb
      rcases hb with hb | hb
      · rw [hb]
        have hw := defaultWeight_pos u.phoneme
        have : D * (acc + defaultWeight u.phoneme) / T - D * acc / T
            = D * defaultWeight u.phoneme / T := by ring
        rw [this]
        positivity
      · exact ih _ b hb

theorem segAux_last_stop (D T : ℚ) (u : PhonemeUnit) (rest : List PhonemeUnit)
    (acc : ℚ) :
    (segAux D T acc (u :: rest)).getLast?.map Block.stop =
      some (D * (acc + totalWeight (u :: rest)) / T) := by
  induction rest generalizing u acc with
  | nil => simp [segAux, totalWeight]
  | cons v vs ih =>
      rw [segAux, segAux]
      rw [List.getLast?_cons_cons]
      have h := ih v (acc + defaultWeight u.phoneme)
      rw [segAux] at h
      rw [h]
      rw [totalWeight, totalWeight]
      simp only [List.map_cons, List.sum_cons]
      congr 2
      ring

/-- C3: for every transcript and every duration `D > 0`, the Phoneme
Segmenter returns an ordered sequence of blocks that is contiguous (no gap,
no overlap), starts at `0`, ends at `D`, has total duration exactly `D`, and
contains no negative-length block (every block has strictly positive
duration). -/
theorem segment_transcript_covers (units : List PhonemeUnit) (D : ℚ)
    (hD : 0 < D) :
    sumDur (segment_transcript units D) = D ∧
    blocksContig (segment_transcript units D) ∧
    (segment_transcript units D).head?.map Block.start = some 0 ∧
    (segment_transcript units D).getLast?.map Block.stop = some D ∧
    ∀ b ∈ segment_transcript units D, 0 < b.stop - b.start := by
  cases units with
  | nil =>
      refine ⟨?_, ?_, ?_, ?_, ?_⟩
      · simp [segment_transcript, sumDur, silenceBlock]
      · simp [segment_transcript, blocksContig]
      · simp [segment_transcript, silenceBlock]
      · simp [segment_transcript, silenceBlock]
      · intro b hb
        simp only [segment_transcript, List.mem_singleton] at hb
        rw [hb]
        simpa [silenceBlock] using hD
  | cons u rest =>
      have hT := totalWeight_pos u rest
      have hTne : totalWeight (u :: rest) ≠ 0 := ne_of_gt hT
      refine ⟨?_, ?_, ?_, ?_, ?_⟩
      · rw [segment_transcript, segAux_sumDur]
        field_simp
      · exact segAux_contig _ _ _ _
      · rw [segment_transcript, segAux]
        simp
      · rw [segment_transcript, segAux_last_stop]
        congr 1
        field_simp
      · exact segAux_pos_dur _ _ hD hT _ _

/-- Witness for C3 at the end-to-end transcript of spec section 8 with
`D = 2`. -/
theorem segment_transcript_covers_witness :
    (0 : ℚ) < 2 ∧
    (sumDur (segment_transcript
        [⟨"こ", "o"⟩, ⟨"ん", "n"⟩, ⟨"に", "i"⟩, ⟨"ち", "i"⟩, ⟨"わ", "a"⟩] 2) = 2 ∧
      blocksContig (segment_transcript
        [⟨"こ", "o"⟩, ⟨"ん", "n"⟩, ⟨"に", "i"⟩, ⟨"ち", "i"⟩, ⟨"わ", "a"⟩] 2) ∧
      (segment_transcript
        [⟨"こ", "o"⟩, ⟨"ん", "n"⟩, ⟨"に", "i"⟩, ⟨"ち", "i"⟩, ⟨"わ", "a"⟩] 2).head?.map
          Block.start = some 0 ∧
      (segment_transcript
        [⟨"こ", "o"⟩, ⟨"ん", "n"⟩, ⟨"に", "i"⟩, ⟨"ち", "i"⟩, ⟨"わ", "a"⟩] 2).getLast?.map
          Block.stop = some 2 ∧
      ∀ b ∈ segment_transcript
        [⟨"こ", "o"⟩, ⟨"ん", "n"⟩, ⟨"に", "i"⟩, ⟨"ち", "i"⟩, ⟨"わ", "a"⟩] 2,
        0 < b.stop - b.start) :=
  ⟨by norm_num,
    segment_transcript_covers
      [⟨"こ", "o"⟩, ⟨"ん", "n"⟩, ⟨"に", "i"⟩, ⟨"ち", "i"⟩, ⟨"わ", "a"⟩] 2 (by norm_num)⟩

/-- C4: for every duration `D > 0`, segmenting the empty transcript yields
exactly one block, labeled silence, spanning `[0, D)`; the segmenter's
return type is a plain block list, so no error is surfaced to the caller. -/
theorem segment_transcript_empty_silence (D : ℚ) (hD : 0 < D) :
    segment_transcript [] D =
      [{ surface := "", label := "sil", start := 0, stop := D,
         shape := .closed, amp := 0 }] := by
  rw [segment_transcript, silenceBlock]

/-- Witness for C4 at `D = 1`. -/
theorem segment_transcript_empty_silence_witness :
    (0 : ℚ) < 1 ∧
    segment_transcript [] 1 =
      [{ surface := "", label := "sil", start := 0, stop := 1,
         shape := .closed, amp := 0 }] :=
  ⟨by norm_num, segment_transcript_empty_silence 1 (by norm_num)⟩

/-- Editing error: a command that would violate the timeline invariant (or
addresses a block that does not exist) is rejected with `InvalidEdit`. -/
inductive EditError
  | invalidEdit
deriving DecidableEq, Repr

/-- Modelled from the spec: a reversible delta, the unit of undo.  Every
timeline command is a splice: replace the `olds.length` blocks sitting at
position `idx` (which are exactly `olds`) by `news`.  The delta carries
enough information to both apply and exactly reverse its effect (inverse
deltas, not full-document snapshots). -/
structure Delta where
  idx : Nat
  olds : List Block
  news : List Block
deriving DecidableEq, Repr

/-- Apply a delta forward: splice `news` in place of the recorded blocks. -/
def applyDelta (d : Delta) (bs : List Block) : List Block :=
  bs.take d.idx ++ d.news ++ bs.drop (d.idx + d.olds.length)

/-- Apply a delta's inverse: splice the recorded original blocks back in
place of `news`. -/
def unapplyDelta (d : Delta) (bs : List Block) : List Block :=
  bs.take d.idx ++ d.olds ++ bs.drop (d.idx + d.news.length)

/-- Modelled from the spec: the Timeline — an ordered sequence of Phoneme
Blocks, the read-only Envelope Curve, and the bounded command history as
past/future stacks of reversible deltas. -/
structure Timeline where
  blocks : List Block
  curve : List EnvPoint
  past : List Delta
  future : List Delta
deriving DecidableEq, Repr

/-- Timeline invariant: blocks are ordered by start time and non-overlapping
(adjacent blocks may touch at a boundary), and every block has positive
length. -/
def blocksOk (bs : List Block) : Prop :=
  List.Chain' (fun a b => a.stop ≤ b.start) bs ∧ ∀ b ∈ bs, b.start < b.stop

/-- Executable check of the timeline invariant. -/
def blocksOkB : List Block → Bool
  | [] => true
  | [b] => decide (b.start < b.stop)
  | a :: b :: rest =>
      decide (a.start < a.stop) && decide (a.stop ≤ b.start) && blocksOkB (b :: rest)

theorem blocksOkB_iff (bs : List Block) : blocksOkB bs = true ↔ blocksOk bs := by
  induction bs with
  | nil => simp [blocksOkB, blocksOk]
  | cons a rest ih =>
      cases rest with
      | nil => simp [blocksOkB, blocksOk]
      | cons b rest2 =>
          rw [blocksOkB, blocksOk]
          simp only [Bool.and_eq_true, decide_eq_true_eq]
          rw [ih, blocksOk]
          constructor
          · rintro ⟨⟨h1, h2⟩, hc, hall⟩
            exact ⟨List.chain'_cons.mpr ⟨h2, hc⟩,
              by intro x hx; rcases List.mem_cons.mp hx with h | h;
                 · rw [h]; exact h1
                 · exact hall x h⟩
          · rintro ⟨hc, hall⟩
            rcases List.chain'_cons.mp hc with ⟨h2, hc2⟩
            exact ⟨⟨hall a (List.mem_cons_self a _), h2⟩, hc2,
              fun x hx => hall x (List.mem_cons_of_mem a hx)⟩

/-- Modelled from the spec: the seven timeline commands. -/
inductive Cmd
  | insert (idx : Nat) (b : Block)
  | delete (idx : Nat)
  | move (idx : Nat) (newStart : ℚ)
  | split (idx : Nat) (t : ℚ)
  | merge (idx : Nat)
  | retime (idx : Nat) (t : ℚ)
  | relabel (idx : Nat) (lbl : String)
deriving DecidableEq, Repr

/-- Modelled from the spec: translate a command on the current block list
into its reversible delta, recording the original blocks it touches.  `move`
shifts a block keeping its duration; `split` divides one block at time `t`
inheriting the label on both halves; `merge` combines two adjacent blocks
keeping the earlier block's label; `retime` moves only the shared boundary
of two neighbors; `relabel` renames one block.  A command addressing a
non-existent block is rejected with `InvalidEdit`. -/
def mkDelta (bs : List Block) : Cmd → Except EditError Delta
  | .insert idx b =>
      if idx ≤ bs.length then .ok ⟨idx, [], [b]⟩ else .error .invalidEdit
  | .delete idx =>
      match bs[idx]? with
      | some b => .ok ⟨idx, [b], []⟩
      | none => .error .invalidEdit
  | .move idx s =>
      match bs[idx]? with
      | some b => .ok ⟨idx, [b], [{ b with start := s, stop := s + (b.stop - b.start) }]⟩
      | none => .error .invalidEdit
  | .split idx t =>
      match bs[idx]? with
      | some b => .ok ⟨idx, [b], [{ b with stop := t }, { b with start := t }]⟩
      | none => .error .invalidEdit
  | .merge idx =>
      match bs[idx]?, bs[idx + 1]? with
      | some a, some b => .ok ⟨idx, [a, b], [{ a with stop := b.stop }]⟩
      | _, _ => .error .invalidEdit
  | .retime idx t =>
      match bs[idx]?, bs[idx + 1]? with
      | some a, some b =>
          .ok ⟨idx, [a, b], [{ a with stop := t }, { b with start := t }]⟩
      | _, _ => .error .invalidEdit
  | .relabel idx lbl =>
      match bs[idx]? with
      | some b => .ok ⟨idx, [b], [{ b with label := lbl }]⟩
      | none => .error .invalidEdit

/-- Modelled from the spec: apply one command.  The spliced result is
validated against the timeline invariant; a command that would violate it is
rejected with `InvalidEdit` (the chosen policy, applied uniformly to all
commands) and reported to the caller through the `Except`, never silently
dropped.  A successful command pushes its delta on the past stack and clears
the redo (future) stack. -/
def applyCmd (tl : Timeline) (c : Cmd) : Except EditError Timeline :=
  match mkDelta tl.blocks c with
  | .error e => .error e
  | .ok d =>
      let bs := applyDelta d tl.blocks
      if blocksOkB bs then
        .ok { blocks := bs, curve := tl.curve, past := d :: tl.past, future := [] }
      else .error .invalidEdit

/-- Apply a sequence of commands, stopping at the first rejection. -/
def applyCmds (tl : Timeline) : List Cmd → Except EditError Timeline
  | [] => .ok tl
  | c :: cs =>
      match applyCmd tl c with
      | .error e => .error e
      | .ok tl1 => applyCmds tl1 cs

/-- Modelled from the spec: undo pops the most recent applied delta, applies
its inverse, and pushes it on the redo stack. -/
def undo (tl : Timeline) : Option Timeline :=
  match tl.past with
  | [] => none
  | d :: rest =>
      some { blocks := unapplyDelta d tl.blocks, curve := tl.curve,
             past := rest, future := d :: tl.future }

/-- Modelled from the spec: redo pops the most recent undone delta, applies
it forward again, and pushes it back on the past stack. -/
def redo (tl : Timeline) : Option Timeline :=
  match tl.future with
  | [] => none
  | d :: rest =>
      some { blocks := applyDelta d tl.blocks, curve := tl.curve,
             past := d :: tl.past, future := rest }

/-- Invoke undo `n` times. -/
def undoN : Nat → Timeline → Option Timeline
  | 0, tl => some tl
  | n + 1, tl => (undoN n tl).bind undo

/-- Invoke redo `n` times. -/
def redoN : Nat → Timeline → Option Timeline
  | 0, tl => some tl
  | n + 1, tl => (redo tl).bind (redoN n)

/-- A delta fits a block list when the blocks it records are exactly those
sitting at its index. -/
def DeltaFits (d : Delta) (bs : List Block) : Prop :=
  (bs.drop d.idx).take d.olds.length = d.olds ∧ d.idx ≤ bs.length

theorem unapplyDelta_applyDelta (d : Delta) (bs : List Block)
    (h : DeltaFits d bs) :
    unapplyDelta d (applyDelta d bs) = bs := by
  rcases h with ⟨htake, hle⟩
  rw [applyDelta, unapplyDelta]
  have hlen : (bs.take d.idx).length = d.idx := by
    rw [List.length_take]; omega
  have h1 : (bs.take d.idx ++ d.news ++ bs.drop (d.idx + d.olds.length)).take d.idx
      = bs.take d.idx := by
    rw [List.append_assoc]; exact List.take_left' hlen
  have h2 : (bs.take d.idx ++ d.news ++ bs.drop (d.idx + d.olds.length)).drop
        (d.idx + d.news.length) = bs.drop (d.idx + d.olds.length) :=
    List.drop_left' (by rw [List.length_append, hlen])
  rw [h1, h2]
  have h3 : d.olds ++ bs.drop (d.idx + d.olds.length) = bs.drop d.idx := by
    have h4 := List.take_append_drop d.olds.length (bs.drop d.idx)
    rw [htake, List.drop_drop] at h4
    rw [← h4]
  rw [List.append_assoc, h3, List.take_append_drop]

theorem take_one_of_getElem (bs : List Block) (i : Nat) (b : Block)
    (h : bs[i]? = some b) : (bs.drop i).take 1 = [b] := by
  rcases List.getElem?_eq_some_iff.mp h with ⟨hlt, hval⟩
  rw [List.drop_eq_getElem_cons hlt, hval, List.take_succ_cons, List.take_zero]

theorem take_two_of_getElem (bs : List Block) (i : Nat) (a b : Block)
    (ha : bs[i]? = some a) (hb : bs[i + 1]? = some b) :
    (bs.drop i).take 2 = [a, b] := by
  rcases List.getElem?_eq_some_iff.mp ha with ⟨hlt, hval⟩
  rw [List.drop_eq_getElem_cons hlt, hval, List.take_succ_cons,
    take_one_of_getElem bs (i + 1) b hb]

theorem getElem?_le_length (bs : List Block) (i : Nat) (b : Block)
    (h : bs[i]? = some b) : i ≤ bs.length :=
  Nat.le_of_lt (List.getElem?_eq_some_iff.mp h).1

theorem mkDelta_fits (bs : List Block) (c : Cmd) (d : Delta)
    (h : mkDelta bs c = .ok d) : DeltaFits d bs := by
  cases c with
  | insert idx b =>
      rw [mkDelta] at h
      by_cases hle : idx ≤ bs.length
      · rw [if_pos hle] at h
        cases h
        exact ⟨by simp, hle⟩
      · rw [if_neg hle] at h; exact Except.noConfusion h
  | delete idx =>
      rw [mkDelta] at h
      cases hg : bs[idx]? with
      | none => rw [hg] at h; exact Except.noConfusion h
      | some b =>
          rw [hg] at h; cases h
          exact ⟨take_one_of_getElem bs idx b hg, getElem?_le_length bs idx b hg⟩
  | move idx s =>
      rw [mkDelta] at h
      cases hg : bs[idx]? with
      | none => rw [hg] at h; exact Except.noConfusion h
      | some b =>
          rw [hg] at h; cases h
          exact ⟨take_one_of_getElem bs idx b hg, getElem?_le_length bs idx b hg⟩
  | split idx t =>
      rw [mkDelta] at h
      cases hg : bs[idx]? with
      | none => rw [hg] at h; exact Except.noConfusion h
      | some b =>
          rw [hg] at h; cases h
          exact ⟨take_one_of_getElem bs idx b hg, getElem?_le_length bs idx b hg⟩
  | merge idx =>
      rw [mkDelta] at h
      cases hg : bs[idx]? with
      | none => rw [hg] at h; exact Except.noConfusion h
      | some a =>
          cases hg2 : bs[idx + 1]? with
          | none => rw [hg, hg2] at h; exact Except.noConfusion h
          | some b =>
              rw [hg, hg2] at h; cases h
              exact ⟨take_two_of_getElem bs idx a b hg hg2,
                getElem?_le_length bs idx a hg⟩
  | retime idx t =>
      rw [mkDelta] at h
      cases hg : bs[idx]? with
      | none => rw [hg] at h; exact Except.noConfusion h
      | some a =>
          cases hg2 : bs[idx + 1]? with
          | none => rw [hg, hg2] at h; exact Except.noConfusion h
          | some b =>
              rw [hg, hg2] at h; cases h
              exact ⟨take_two_of_getElem bs idx a b hg hg2,
                getElem?_le_length bs idx a hg⟩
  | relabel idx lbl =>
      rw [mkDelta] at h
      cases hg : bs[idx]? with
      | none => rw [hg] at h; exact Except.noConfusion h
      | some b =>
          rw [hg] at h; cases h
          exact ⟨take_one_of_getElem bs idx b hg, getElem?_le_length bs idx b hg⟩

theorem applyCmd_ok (tl : Timeline) (c : Cmd) (tl' : Timeline)
    (h : applyCmd tl c = .ok tl') :
    ∃ d, DeltaFits d tl.blocks ∧ blocksOkB (applyDelta d tl.blocks) = true ∧
      tl' = { blocks := applyDelta d tl.blocks, curve := tl.curve,
              past := d :: tl.past, future := [] } := by
  rw [applyCmd] at h
  cases hm : mkDelta tl.blocks c with
  | error e => rw [hm] at h; exact Except.noConfusion h
  | ok d =>
      rw [hm] at h
      simp only at h
      by_cases hok : blocksOkB (applyDelta d tl.blocks) = true
      · rw [if_pos hok] at h
        cases h
        exact ⟨d, mkDelta_fits tl.blocks c d hm, hok, rfl⟩
      · rw [if_neg hok] at h
        exact Except.noConfusion h

/-- Forward replay of a list of deltas, each fitting the state it is applied
to. -/
inductive ReplayChain : List Block → List Delta → List Block → Prop
  | nil (bs : List Block) : ReplayChain bs [] bs
  | cons (bs bs' : List Block) (d : Delta) (ds : List Delta)
      (hfit : DeltaFits d bs) (hrest : ReplayChain (applyDelta d bs) ds bs') :
      ReplayChain bs (d :: ds) bs'

theorem applyCmds_undoN (cs : List Cmd) (tl tl' : Timeline)
    (h : applyCmds tl cs = .ok tl') :
    ∃ ds : List Delta,
      ds.length = cs.length ∧
      tl'.curve = tl.curve ∧
      ReplayChain tl.blocks ds tl'.blocks ∧
      undoN cs.length tl' =
        some { blocks := tl.blocks, curve := tl.curve, past := tl.past,
               future := ds ++ tl'.future } := by
  induction cs generalizing tl with
  | nil =>
      rw [applyCmds] at h
      cases h
      exact ⟨[], rfl, rfl, ReplayChain.nil _, rfl⟩
  | cons c cs ih =>
      rw [applyCmds] at h
      cases ha : applyCmd tl c with
      | error e => rw [ha] at h; exact Except.noConfusion h
      | ok tl1 =>
          rw [ha] at h
          rcases applyCmd_ok tl c tl1 ha with ⟨d, hfit, _, htl1⟩
          subst htl1
          rcases ih _ h with ⟨ds, hlen, hcv, hchain, hundo⟩
          refine ⟨d :: ds, by simp [hlen], by simpa using hcv, ?_, ?_⟩
          · exact ReplayChain.cons _ _ _ _ hfit (by simpa using hchain)
          · rw [List.length_cons]
            show (undoN cs.length tl').bind undo = _
            rw [hundo]
            simp only [Option.some_bind, undo]
            rw [unapplyDelta_applyDelta d tl.blocks hfit]
            rfl

theorem redoN_replay (ds : List Delta) (bs bs' : List Block)
    (h : ReplayChain bs ds bs') (cv : List EnvPoint) (p f : List Delta) :
    redoN ds.length { blocks := bs, curve := cv, past := p, future := ds ++ f }
      = some { blocks := bs', curve := cv, past := ds.reverse ++ p, future := f } := by
  induction h generalizing p with
  | nil bs0 => rfl
  | cons bs0 bs0' d ds0 hfit hrest ih =>
      rw [List.length_cons]
      show redoN ds0.length
          { blocks := applyDelta d bs0, curve := cv, past := d :: p, future := ds0 ++ f }
        = _
      rw [ih (d :: p)]
      simp [List.reverse_cons, List.append_assoc]

/-- C5: for every Timeline state and every sequence of `N` commands that all
apply successfully, invoking undo `N` times restores the document state
(blocks, envelope curve, and even the past stack) structurally identical to
the initial state, and then invoking redo `N` times restores the
post-command blocks and curve; moreover every successful fresh command
clears the redo (future) stack. -/
theorem timeline_undo_redo_roundtrip (tl : Timeline) (cs : List Cmd)
    (tl' : Timeline) (h : applyCmds tl cs = .ok tl') :
    (∃ tlu, undoN cs.length tl' = some tlu ∧
        tlu.blocks = tl.blocks ∧ tlu.curve = tl.curve ∧ tlu.past = tl.past ∧
      ∃ tlr, redoN cs.length tlu = some tlr ∧
        tlr.blocks = tl'.blocks ∧ tlr.curve = tl'.curve) ∧
    ∀ (u v : Timeline) (c : Cmd), applyCmd u c = .ok v → v.future = [] := by
  rcases applyCmds_undoN cs tl tl' h with ⟨ds, hlen, hcv, hchain, hundo⟩
  constructor
  · refine ⟨_, hundo, rfl, rfl, rfl, ?_⟩
    have hr := redoN_replay ds tl.blocks tl'.blocks hchain tl.curve tl.past tl'.future
    rw [hlen] at hr
    exact ⟨_, hr, rfl, hcv.symm⟩
  · intro u v c hc
    rcases applyCmd_ok u c v hc with ⟨d, _, _, hv⟩
    rw [hv]

/-- Concrete one-block data for the undo/redo witnesses. -/
def blockA : Block :=
  { surface := "a", label := "a", start := 0, stop := 1, shape := .a, amp := 0 }

/-- The same block relabeled to `"o"`. -/
def blockO : Block :=
  { surface := "a", label := "o", start := 0, stop := 1, shape := .a, amp := 0 }

/-- The empty timeline. -/
def emptyTl : Timeline := { blocks := [], curve := [], past := [], future := [] }

/-- The timeline reached from `emptyTl` by inserting `blockA`. -/
def oneBlockTl : Timeline :=
  { blocks := [blockA], curve := [], past := [⟨0, [], [blockA]⟩], future := [] }

/-- Witness for C5: from the empty timeline, insert one block, then the
theorem provides the undo/redo round trip. -/
theorem timeline_undo_redo_roundtrip_witness :
    applyCmds emptyTl [Cmd.insert 0 blockA] = .ok oneBlockTl ∧
    ((∃ tlu, undoN 1 oneBlockTl = some tlu ∧
        tlu.blocks = emptyTl.blocks ∧ tlu.curve = emptyTl.curve ∧
        tlu.past = emptyTl.past ∧
      ∃ tlr, redoN 1 tlu = some tlr ∧
        tlr.blocks = oneBlockTl.blocks ∧ tlr.curve = oneBlockTl.curve) ∧
    ∀ (u v : Timeline) (c : Cmd), applyCmd u c = .ok v → v.future = []) :=
  ⟨by decide,
    timeline_undo_redo_roundtrip emptyTl [Cmd.insert 0 blockA] oneBlockTl (by decide)⟩

/-- C6: the timeline invariant — blocks ordered by start time,
non-overlapping (touching boundaries allowed), positive lengths — holds
after every command that succeeds, and a command that cannot be applied is
rejected with `InvalidEdit` through the `Except` result (reported to the
caller, never silently dropped). -/
theorem timeline_command_preserves_invariant (tl : Timeline) (c : Cmd)
    (hinv : blocksOk tl.blocks) :
    (∀ tl', applyCmd tl c = .ok tl' → blocksOk tl'.blocks) ∧
    (∀ e, applyCmd tl c = .error e → e = .invalidEdit) := by
  refine ⟨?_, ?_⟩
  · intro tl' h
    rcases applyCmd_ok tl c tl' h with ⟨d, _, hok, htl⟩
    rw [htl]
    exact (blocksOkB_iff _).mp hok
  · intro e _
    cases e
    rfl

/-- The one-block timeline with no history. -/
def freshTl : Timeline := { blocks := [blockA], curve := [], past := [], future := [] }

/-- The timeline reached from `freshTl` by relabeling its block to `"o"`. -/
def relabeledTl : Timeline :=
  { blocks := [blockO], curve := [], past := [⟨0, [blockA], [blockO]⟩], future := [] }

/-- Witness for C6: relabel the single block of a one-block timeline. -/
theorem timeline_command_preserves_invariant_witness :
    blocksOk freshTl.blocks ∧
    applyCmd freshTl (Cmd.relabel 0 "o") = .ok relabeledTl ∧
    blocksOk relabeledTl.blocks :=
  ⟨(blocksOkB_iff _).mp (by decide), by decide,
    (timeline_command_preserves_invariant freshTl (Cmd.relabel 0 "o")
      ((blocksOkB_iff _).mp (by decide))).1 relabeledTl (by decide)⟩

/-- JSON value tree.  Numbers are exact rationals: the generic JSON save
format round-trips timings float-exactly. -/
inductive Json
  | null
  | num (q : ℚ)
  | str (s : String)
  | arr (xs : List Json)
  | obj (fields : List (String × Json))

/-- Import error for a malformed or incompatible saved document. -/
inductive ImportError
  | formatMismatch
deriving DecidableEq, Repr

/-- Name of a mouth-shape category in the JSON document. -/
def shapeToStr : MouthShape → String
  | .a => "a"
  | .i => "i"
  | .u => "u"
  | .e => "e"
  | .o => "o"
  | .closed => "closed"

/-- Parses a mouth-shape category name back. -/
def strToShape (s : String) : Option MouthShape :=
  if s = "a" then some .a
  else if s = "i" then some .i
  else if s = "u" then some .u
  else if s = "e" then some .e
  else if s = "o" then some .o
  else if s = "closed" then some .closed
  else none

theorem strToShape_shapeToStr (m : MouthShape) :
    strToShape (shapeToStr m) = some m := by
  cases m <;> simp [shapeToStr, strToShape]

/-- Modelled from the spec: serialize one Phoneme Block. -/
def encBlock (b : Block) : Json :=
  .obj [("surface", .str b.surface), ("label", .str b.label),
        ("start", .num b.start), ("end", .num b.stop),
        ("shape", .str (shapeToStr b.shape)), ("amp", .num b.amp)]

/-- Modelled from the spec: parse one Phoneme Block. -/
def decBlock : Json → Option Block
  | .obj [("surface", .str s), ("label", .str l), ("start", .num st),
          ("end", .num en), ("shape", .str sh), ("amp", .num a)] =>
      (strToShape sh).map
        (fun m => { surface := s, label := l, start := st, stop := en,
                    shape := m, amp := a })
  | _ => none

/-- Modelled from the spec: serialize one envelope triple. -/
def encPoint (p : EnvPoint) : Json :=
  .obj [("start", .num p.wStart), ("end", .num p.wEnd),
        ("amplitude", .num p.amplitude)]

/-- Modelled from the spec: parse one envelope triple. -/
def decPoint : Json → Option EnvPoint
  | .obj [("start", .num s), ("end", .num e), ("amplitude", .num a)] =>
      some { wStart := s, wEnd := e, amplitude := a }
  | _ => none

/-- Modelled from the spec: the generic JSON encoder — a pure function of
the Timeline's read model (it cannot mutate its argument) serializing the
full block list plus envelope curve. -/
def export_json (tl : Timeline) : Json :=
  .obj [("blocks", .arr (tl.blocks.map encBlock)),
        ("curve", .arr (tl.curve.map encPoint))]

/-- Modelled from the spec: import of a generic JSON document, producing a
fresh Timeline (empty history) or `FormatMismatch`. -/
def import_json (j : Json) : Except ImportError Timeline :=
  match j with
  | .obj [("blocks", .arr bs), ("curve", .arr cv)] =>
      match bs.mapM decBlock, cv.mapM decPoint with
      | some blocks, some curve =>
          .ok { blocks := blocks, curve := curve, past := [], future := [] }
      | _, _ => .error .formatMismatch
  | _ => .error .formatMismatch

theorem decBlock_encBlock (b : Block) : decBlock (encBlock b) = some b := by
  rw [encBlock, decBlock, strToShape_shapeToStr, Option.map_some']

theorem decPoint_encPoint (p : EnvPoint) : decPoint (encPoint p) = some p := rfl

theorem mapM_dec_enc {α : Type} (f : α → Json) (g : Json → Option α)
    (hfg : ∀ a, g (f a) = some a) (l : List α) : (l.map f).mapM g = some l := by
  induction l with
  | nil => rfl
  | cons a l ih => rw [List.map_cons, List.mapM_cons, hfg, ih]; rfl

/-- C7: exporting any Timeline with the generic JSON encoder and importing
the result yields a Timeline whose block list and envelope curve are
identical (same order, timings and labels, float-exact); the exporter is a
pure function of the Timeline, so the export never mutates it. -/
theorem export_import_roundtrip (tl : Timeline) :
    import_json (export_json tl) =
      .ok { blocks := tl.blocks, curve := tl.curve, past := [], future := [] } := by
  rw [export_json, import_json]
  rw [mapM_dec_enc encBlock decBlock decBlock_encBlock tl.blocks,
    mapM_dec_enc encPoint decPoint decPoint_encPoint tl.curve]

end Lipsync
